import Mathlib

/-
Verification development for the Bradley-Terry rating repository.

The repository's core (src/bt_rating.py, src/bt_rating_bayesian.py) is
shallowly embedded below:
* Python dict-of-dict integer tallies become functions `Player → Player → ℕ`
  together with the `Finset` of players (a dict key is present iff its count
  is positive, since keys are only ever created by `+= 1` increments);
* floating-point strengths/ratings become real numbers `ℝ`;
* the pseudorandom draws consumed by the MCMC sampler become an explicitly
  injected stream of realized values;
* Python's `float('inf')` sentinel for an undefined rating change becomes
  `Option ℝ` with `none` as the sentinel.
-/

namespace BT

abbrev Player := Nat

/-- A single match record: (winner, loser). -/
abbrev Game := Player × Player

/-- Multiplicity of the ordered pair `(i, j)` in a match list. -/
def winCount (ms : List Game) (i j : Player) : Nat :=
  ms.countP fun m => decide (m = (i, j))

/-- `bump f a b` is the tally `f` with the `(a, b)` cell incremented, the
shallow embedding of `d[a][b] += 1` on a `defaultdict(lambda: defaultdict(int))`. -/
def bump (f : Player → Player → Nat) (a b : Player) : Player → Player → Nat :=
  fun x y => if x = a ∧ y = b then f x y + 1 else f x y

/-- The result of `aggregate_matches`: the player set, the win tally `w`
(`w i j` = times `i` beat `j`) and the total tally `n`
(`n i j` = games between `i` and `j`). -/
structure Agg where
  players : Finset Player
  w : Player → Player → Nat
  n : Player → Player → Nat

/-- One loop-body step of `aggregate_matches` (src/bt_rating.py lines 35-40):
add both ids to the player set, bump `w[winner][loser]`, `n[winner][loser]`
and `n[loser][winner]`. -/
def aggStep (ag : Agg) (m : Game) : Agg :=
  ⟨insert m.1 (insert m.2 ag.players),
   bump ag.w m.1 m.2,
   bump (bump ag.n m.1 m.2) m.2 m.1⟩

/-- The aggregation loop of `aggregate_matches`, started from a given state. -/
def aggregateFrom (ag : Agg) (ms : List Game) : Agg :=
  ms.foldl aggStep ag

/-- The empty tallies the loop of `aggregate_matches` starts from. -/
def emptyAgg : Agg := ⟨∅, fun _ _ => 0, fun _ _ => 0⟩

/-- `aggregate_matches` (src/bt_rating.py lines 22-41). -/
def aggregate_matches (ms : List Game) : Agg :=
  aggregateFrom emptyAgg ms

/-! ### The MM fitter `fit_bradley_terry` (src/bt_rating.py lines 44-128) -/

/-- The clamp floor `epsilon = 1e-300` of src/bt_rating.py line 103
(idealizing the double literal as the exact rational it denotes). -/
noncomputable def btEps : ℝ := 1 / 10 ^ 300

/-- `t[i] = sum(w[i].values())` (line 70): total wins of player `i`.
The inner keys of `w[i]` are exactly the opponents with a positive count,
all of which lie in the player set, so summing over all players agrees. -/
def totalWins (pl : Finset Player) (w : Player → Player → Nat) (i : Player) : Nat :=
  ∑ j ∈ pl, w i j

/-- The MM denominator of player `i` (lines 87-92):
`denom = Σ_j n_ij / (p_i + p_j)` over opponents `j` with `n_ij > 0`
(the loop iterates `n[i].items()` and skips `nij <= 0`; a key of `n[i]`
exists exactly when `n i j > 0`). -/
noncomputable def denom (pl : Finset Player) (n : Player → Player → Nat)
    (p : Player → ℝ) (i : Player) : ℝ :=
  ∑ j ∈ pl, if 0 < n i j then (n i j : ℝ) / (p i + p j) else 0

/-- Lines 94-98: `p_i_new = t[i] / denom` when `denom > 0`, else `p[i]` kept. -/
noncomputable def rawUpdate (pl : Finset Player) (w n : Player → Player → Nat)
    (p : Player → ℝ) (i : Player) : ℝ :=
  if 0 < denom pl n p i then (totalWins pl w i : ℝ) / denom pl n p i else p i

/-- Lines 104-105: `p_new[i] = max(p_new[i], epsilon)`. -/
noncomputable def clampedUpdate (pl : Finset Player) (w n : Player → Player → Nat)
    (p : Player → ℝ) (i : Player) : ℝ :=
  max (rawUpdate pl w n p i) btEps

/-- Lines 107-109: `factor = exp(-mean(log p_new))`, the geometric-mean
renormalization factor. -/
noncomputable def renormFactor (pl : Finset Player) (q : Player → ℝ) : ℝ :=
  Real.exp (-((∑ j ∈ pl, Real.log (q j)) / pl.card))

/-- One full MM iteration (lines 82-115): raw update, epsilon clamp,
geometric-mean renormalization. -/
noncomputable def btStep (pl : Finset Player) (w n : Player → Player → Nat)
    (p : Player → ℝ) : Player → ℝ :=
  fun i => clampedUpdate pl w n p i * renormFactor pl (clampedUpdate pl w n p)

/-- Lines 110-114: running maximum over players of
`abs(p_new[i] - p[i]) / max(p[i], epsilon)`, folded in iteration order
starting from `0.0`. -/
noncomputable def maxRelChange (pl : Finset Player) (p pNew : Player → ℝ) : ℝ :=
  ((pl.sort (· ≤ ·)).map fun i => |pNew i - p i| / max (p i) btEps).foldl max 0

/-- The iteration loop of `fit_bradley_terry` (lines 82-121): perform a full
MM step, stop early once the maximum relative change falls below `tol`,
and otherwise continue with the remaining iteration budget. -/
noncomputable def btLoop (pl : Finset Player) (w n : Player → Player → Nat)
    (tol : ℝ) : Nat → (Player → ℝ) → (Player → ℝ)
  | 0, p => p
  | fuel + 1, p =>
      let pNew := btStep pl w n p
      if maxRelChange pl p pNew < tol then pNew else btLoop pl w n tol fuel pNew

/-- The value returned by `fit_bradley_terry`: the player key set shared by the
`ratings` and `strengths` dicts, and the two dicts as functions. -/
structure FitResult where
  players : Finset Player
  ratings : Player → ℝ
  strengths : Player → ℝ

/-- Body of `fit_bradley_terry` after aggregation (lines 64-128): empty player
set short-circuits to empty dicts; otherwise run the MM loop from all-ones and
return zero-mean log strengths together with the strengths themselves. -/
noncomputable def fitAux (ag : Agg) (max_iter : Nat) (tol : ℝ) : FitResult :=
  if ag.players = ∅ then ⟨∅, fun _ => 0, fun _ => 0⟩
  else
    let p := btLoop ag.players ag.w ag.n tol max_iter (fun _ => 1)
    let meanLog := (∑ i ∈ ag.players, Real.log (p i)) / ag.players.card
    ⟨ag.players, fun i => Real.log (p i) - meanLog, p⟩

/-- `fit_bradley_terry` (src/bt_rating.py lines 44-128). -/
noncomputable def fit_bradley_terry (ms : List Game) (max_iter : Nat) (tol : ℝ) :
    FitResult :=
  fitAux (aggregate_matches ms) max_iter tol

/-- The Bradley-Terry log-likelihood of the tallied outcomes at strength
vector `p`: every ordered win count `w i j` contributes
`w i j * log(p i / (p i + p j))` exactly once. -/
noncomputable def log_likelihood (pl : Finset Player) (w : Player → Player → Nat)
    (p : Player → ℝ) : ℝ :=
  ∑ i ∈ pl, ∑ j ∈ pl, (w i j : ℝ) * (Real.log (p i) - Real.log (p i + p j))

/-! ### The Bayesian sampler (src/bt_rating_bayesian.py) -/

/-- The max-shifted log-sum-exp of two log-strengths
(src/bt_rating_bayesian.py lines 37-38). -/
noncomputable def logSumPair (a b : ℝ) : ℝ :=
  max a b + Real.log (Real.exp (a - max a b) + Real.exp (b - max a b))

/-- `log_posterior` (src/bt_rating_bayesian.py lines 11-48).  The double loop
`for i in wins: for j in wins[i]` visits exactly the ordered pairs with
`w i j > 0` (keys exist iff their count is positive), guarded by
`matches[i][j] > 0`; each visited pair contributes
`w_ij*(r_i - logsum) + (matches_ij - w_ij)*(r_j - logsum)`, and the Gaussian
prior is subtracted for every player key of the ratings dict. -/
noncomputable def log_posterior (pl : Finset Player) (w n : Player → Player → Nat)
    (r : Player → ℝ) (prior_std : ℝ) : ℝ :=
  (∑ i ∈ pl, ∑ j ∈ pl,
    if 0 < w i j ∧ 0 < n i j then
      (w i j : ℝ) * (r i - logSumPair (r i) (r j))
        + ((n i j : ℝ) - (w i j : ℝ)) * (r j - logSumPair (r i) (r j))
    else 0)
  - ∑ i ∈ pl, 1 / 2 * (r i / prior_std) ^ 2

/-- The once-per-game Bradley-Terry log-likelihood plus the Gaussian log-prior
that claim C3 asserts `log_posterior` computes.  Modelled from the spec: every
ordered win count `w i j` contributes `w i j * log P(i beats j)` exactly once,
and the prior `-(1/2) (r_i / prior_std)^2` is added for every player. -/
noncomputable def specOncePosterior (pl : Finset Player) (w : Player → Player → Nat)
    (r : Player → ℝ) (prior_std : ℝ) : ℝ :=
  (∑ i ∈ pl, ∑ j ∈ pl,
    (w i j : ℝ) * (r i - Real.log (Real.exp (r i) + Real.exp (r j))))
  - ∑ i ∈ pl, 1 / 2 * (r i / prior_std) ^ 2

/-- The Metropolis chain state of `mcmc_bradley_terry`: the current ratings
dict, the cached current log-posterior (`current_log_prob`), and the position
in the injected stream of random draws. -/
structure ChainState where
  cur : Player → ℝ
  clp : ℝ
  k : Nat

/-- One proposal/accept step for one player (src/bt_rating_bayesian.py lines
93-109).  The stream entry `rand k` holds the two draws the code takes at that
point: a standard normal draw (scaled by `proposal_std`, the
reparameterization of `np.random.normal(0, proposal_std)`) and the uniform
draw fed to `math.log`. -/
noncomputable def playerStep (pl : Finset Player) (w n : Player → Player → Nat)
    (proposal_std prior_std : ℝ) (rand : Nat → ℝ × ℝ)
    (s : ChainState) (q : Player) : ChainState :=
  let proposed := Function.update s.cur q (s.cur q + proposal_std * (rand s.k).1)
  let plp := log_posterior pl w n proposed prior_std
  if Real.log (rand s.k).2 < plp - s.clp then ⟨proposed, plp, s.k + 1⟩
  else ⟨s.cur, s.clp, s.k + 1⟩

/-- One sweep over all players in the fixed deterministic (sorted) order,
applying each accepted update immediately (lines 93-109). -/
noncomputable def sweep (pl : Finset Player) (w n : Player → Player → Nat)
    (proposal_std prior_std : ℝ) (rand : Nat → ℝ × ℝ) (s : ChainState) :
    ChainState :=
  (pl.sort (· ≤ ·)).foldl (playerStep pl w n proposal_std prior_std rand) s

/-- Lines 111-114: subtract the mean rating from every player's entry
(only player keys exist in the dict, hence the membership guard). -/
noncomputable def recenter (pl : Finset Player) (r : Player → ℝ) : Player → ℝ :=
  fun x => if x ∈ pl then r x - (∑ i ∈ pl, r i) / pl.card else r x

/-- The sampler state across iterations: chain state plus recorded samples. -/
structure McmcState where
  chain : ChainState
  samples : List (Player → ℝ)

/-- One iteration of the outer loop (lines 90-120): a full sweep, the zero-mean
recentering, the recomputation of the cached log-posterior at the shifted
point, and the post-burn-in thinned recording of the current ratings. -/
noncomputable def mcmcIter (pl : Finset Player) (w n : Player → Player → Nat)
    (proposal_std prior_std : ℝ) (rand : Nat → ℝ × ℝ) (burn_in thin : Nat)
    (st : McmcState) (iteration : Nat) : McmcState :=
  let s1 := sweep pl w n proposal_std prior_std rand st.chain
  let r2 := recenter pl s1.cur
  let s2 : ChainState := ⟨r2, log_posterior pl w n r2 prior_std, s1.k⟩
  if burn_in ≤ iteration ∧ (iteration - burn_in) % thin = 0 then
    ⟨s2, st.samples ++ [r2]⟩
  else ⟨s2, st.samples⟩

/-- The outer loop `for iteration in range(n_samples + burn_in)`. -/
noncomputable def mcmcRun (pl : Finset Player) (w n : Player → Player → Nat)
    (proposal_std prior_std : ℝ) (rand : Nat → ℝ × ℝ) (burn_in thin total : Nat)
    (init : McmcState) : McmcState :=
  (List.range total).foldl (mcmcIter pl w n proposal_std prior_std rand burn_in thin) init

/-- The value returned by `mcmc_bradley_terry`: either the empty dict (empty
input) or the bundle keyed by the player set.  The summary statistics
(mean/median/std/percentiles) of lines 128-144 are pointwise functions of the
retained `samples`, which the bundle carries in full. -/
inductive McmcResult where
  | empty : McmcResult
  | stats (players : Finset Player) (samples : List (Player → ℝ)) : McmcResult

/-- The retained sample vectors of an `mcmc_bradley_terry` result
(the empty dict carries none). -/
def McmcResult.samplesList : McmcResult → List (Player → ℝ)
  | McmcResult.empty => []
  | McmcResult.stats _ s => s

/-- The player key set of an `mcmc_bradley_terry` result. -/
def McmcResult.playerSet : McmcResult → Finset Player
  | McmcResult.empty => ∅
  | McmcResult.stats pl _ => pl

/-- `mcmc_bradley_terry` (src/bt_rating_bayesian.py lines 51-151), with the
pseudorandom draws injected as the explicit stream `rand`. -/
noncomputable def mcmc_bradley_terry (ms : List Game) (n_samples burn_in thin : Nat)
    (proposal_std prior_std : ℝ) (rand : Nat → ℝ × ℝ) : McmcResult :=
  let ag := aggregate_matches ms
  if ag.players = ∅ then McmcResult.empty
  else
    let init : ChainState :=
      ⟨fun _ => 0, log_posterior ag.players ag.w ag.n (fun _ => 0) prior_std, 0⟩
    let fin := mcmcRun ag.players ag.w ag.n proposal_std prior_std rand burn_in thin
      (n_samples + burn_in) ⟨init, []⟩
    McmcResult.stats ag.players fin.samples

/-! ### The convergence analyzer (src/bt_rating.py lines 194-259) -/

/-- One trace entry of `analyze_rating_convergence`: the prefix length, the
maximum absolute rating change against the previous snapshot (`none` models
the `float('inf')` sentinel), and the ratings snapshot with its key set. -/
structure ConvPoint where
  num_matches : Nat
  max_rating_change : Option ℝ
  players : Finset Player
  ratings : Player → ℝ

/-- Lines 215-224: the max of `abs(ratings[p] - prev_ratings[p])` over the
players common to both snapshots, `inf` (here `none`) if none are common. -/
noncomputable def changeBetween (prevPl : Finset Player) (prevR : Player → ℝ)
    (curPl : Finset Player) (curR : Player → ℝ) : Option ℝ :=
  let common := curPl ∩ prevPl
  if h : common.Nonempty then some (common.sup' h fun q => |curR q - prevR q|)
  else none

/-- One trace entry: fit the length-`i` prefix and compare with the previous
snapshot (`none` when there is none, giving the `inf` sentinel). -/
noncomputable def convPointAt (ms : List Game) (max_iter : Nat) (tol : ℝ)
    (prev : Option (Finset Player × (Player → ℝ))) (i : Nat) : ConvPoint :=
  let fr := fit_bradley_terry (ms.take i) max_iter tol
  let mc := match prev with
    | none => none
    | some pp => changeBetween pp.1 pp.2 fr.players fr.ratings
  ⟨i, mc, fr.players, fr.ratings⟩

/-- The accumulation loop over prefix lengths, carrying the previous snapshot. -/
noncomputable def convTrace (ms : List Game) (max_iter : Nat) (tol : ℝ) :
    Option (Finset Player × (Player → ℝ)) → List Nat → List ConvPoint
  | _, [] => []
  | prev, i :: rest =>
      let pt := convPointAt ms max_iter tol prev i
      pt :: convTrace ms max_iter tol (some (pt.players, pt.ratings)) rest

/-- `analyze_rating_convergence` (src/bt_rating.py lines 194-259): empty input
returns the empty list; otherwise fit the prefixes of length
`step_size, 2*step_size, ...` (Python `range(step_size, len+1, step_size)`)
and append one final full-length point when the length is not an exact
multiple of `step_size`. -/
noncomputable def analyze_rating_convergence (ms : List Game) (step_size : Nat)
    (max_iter : Nat) (tol : ℝ) : List ConvPoint :=
  if ms = [] then []
  else
    convTrace ms max_iter tol none
      (List.range' step_size (ms.length / step_size) step_size ++
        (if ms.length % step_size = 0 then [] else [ms.length]))

/-! ### Theorems: aggregation -/

theorem bump_apply (f : Player → Player → Nat) (a b i j : Player) :
    bump f a b i j = f i j + if a = i ∧ b = j then 1 else 0 := by
  unfold bump
  by_cases hc : i = a ∧ j = b
  · obtain ⟨h1, h2⟩ := hc
    subst h1; subst h2
    simp
  · have hc' : ¬ (a = i ∧ b = j) := fun hx => hc ⟨hx.1.symm, hx.2.symm⟩
    simp [hc, hc']

theorem winCount_perm {ms ms' : List Game} (h : ms.Perm ms') (i j : Player) :
    winCount ms i j = winCount ms' i j :=
  h.countP_eq _

theorem aggStep_w (ag : Agg) (m : Game) : (aggStep ag m).w = bump ag.w m.1 m.2 := rfl

theorem aggStep_n (ag : Agg) (m : Game) :
    (aggStep ag m).n = bump (bump ag.n m.1 m.2) m.2 m.1 := rfl

theorem aggStep_players (ag : Agg) (m : Game) :
    (aggStep ag m).players = insert m.1 (insert m.2 ag.players) := rfl

theorem aggregateFrom_w (ms : List Game) : ∀ (ag : Agg) (i j : Player),
    (aggregateFrom ag ms).w i j = ag.w i j + winCount ms i j := by
  induction ms with
  | nil => intro ag i j; simp [aggregateFrom, winCount]
  | cons m t ih =>
      obtain ⟨a, b⟩ := m
      intro ag i j
      have h := ih (aggStep ag (a, b)) i j
      simp only [aggregateFrom, List.foldl_cons] at h ⊢
      rw [h]
      simp only [aggStep_w, aggStep_n, bump_apply, winCount, List.countP_cons,
        decide_eq_true_eq, Prod.mk.injEq]
      split_ifs <;> omega

theorem aggregateFrom_n (ms : List Game) : ∀ (ag : Agg) (i j : Player),
    (aggregateFrom ag ms).n i j = ag.n i j + winCount ms i j + winCount ms j i := by
  induction ms with
  | nil => intro ag i j; simp [aggregateFrom, winCount]
  | cons m t ih =>
      obtain ⟨a, b⟩ := m
      intro ag i j
      have h := ih (aggStep ag (a, b)) i j
      simp only [aggregateFrom, List.foldl_cons] at h ⊢
      rw [h]
      simp only [aggStep_w, aggStep_n, bump_apply, winCount, List.countP_cons,
        decide_eq_true_eq, Prod.mk.injEq]
      have hcomm : ((b : Player) = i ∧ (a : Player) = j) ↔ (a = j ∧ b = i) := and_comm
      simp only [hcomm]
      split_ifs <;> omega

theorem aggregateFrom_players (ms : List Game) : ∀ (ag : Agg),
    (aggregateFrom ag ms).players
      = ag.players ∪ (ms.map Prod.fst).toFinset ∪ (ms.map Prod.snd).toFinset := by
  induction ms with
  | nil => intro ag; simp [aggregateFrom]
  | cons m t ih =>
      obtain ⟨a, b⟩ := m
      intro ag
      have h := ih (aggStep ag (a, b))
      simp only [aggregateFrom, List.foldl_cons] at h ⊢
      rw [h]
      simp only [aggStep_players, List.map_cons, List.toFinset_cons]
      ext x
      simp
      tauto

theorem aggregate_w (ms : List Game) (i j : Player) :
    (aggregate_matches ms).w i j = winCount ms i j := by
  have h := aggregateFrom_w ms emptyAgg i j
  simpa [aggregate_matches, emptyAgg] using h

theorem aggregate_n (ms : List Game) (i j : Player) :
    (aggregate_matches ms).n i j = winCount ms i j + winCount ms j i := by
  have h := aggregateFrom_n ms emptyAgg i j
  simpa [aggregate_matches, emptyAgg] using h

theorem aggregate_players (ms : List Game) :
    (aggregate_matches ms).players
      = (ms.map Prod.fst).toFinset ∪ (ms.map Prod.snd).toFinset := by
  have h := aggregateFrom_players ms emptyAgg
  simpa [aggregate_matches, emptyAgg] using h

/-- Aggregation is determined by the multiset of matches. -/
theorem aggregate_perm {ms ms' : List Game} (h : ms.Perm ms') :
    aggregate_matches ms = aggregate_matches ms' := by
  have hw : (aggregate_matches ms).w = (aggregate_matches ms').w := by
    funext i j
    rw [aggregate_w, aggregate_w]
    exact h.countP_eq _
  have hn : (aggregate_matches ms).n = (aggregate_matches ms').n := by
    funext i j
    rw [aggregate_n, aggregate_n, winCount_perm h, winCount_perm h]
  have hp : (aggregate_matches ms).players = (aggregate_matches ms').players := by
    rw [aggregate_players, aggregate_players]
    ext x
    simp only [Finset.mem_union, List.mem_toFinset]
    rw [(h.map Prod.fst).mem_iff, (h.map Prod.snd).mem_iff]
  cases hA : aggregate_matches ms with
  | mk a b c =>
      cases hB : aggregate_matches ms' with
      | mk a' b' c' =>
          rw [hA, hB] at hw hn hp
          simp_all

/-! ### Claim theorems: aggregation invariants and order independence -/

/-- Claim C10: for every match list the tallies of `aggregate_matches` satisfy
`n i j = w i j + w j i` for every pair (each recorded game between `i` and `j`
is a win for exactly one of them), hence `w i j ≤ n i j`, so that the
loser-side win count is recoverable as `matches[i][j] - wins[i][j]`. -/
theorem aggregate_matches_total_split (ms : List Game) (i j : Player) :
    (aggregate_matches ms).n i j
        = (aggregate_matches ms).w i j + (aggregate_matches ms).w j i ∧
      (aggregate_matches ms).w i j ≤ (aggregate_matches ms).n i j := by
  rw [aggregate_n, aggregate_w, aggregate_w]
  omega

/-- Claim C1: `fit_bradley_terry` returns the same ratings and strengths on any
permutation of the match list (the result depends only on the multiset of
(winner, loser) pairs), and pairwise win counts accumulate additively over
batches, so duplicate pairs add their counts. -/
theorem fit_bradley_terry_perm_invariant (ms ms' : List Game) (max_iter : Nat)
    (tol : ℝ) (h : ms.Perm ms') :
    fit_bradley_terry ms max_iter tol = fit_bradley_terry ms' max_iter tol ∧
      ∀ (xs ys : List Game) (i j : Player),
        (aggregate_matches (xs ++ ys)).w i j
          = (aggregate_matches xs).w i j + (aggregate_matches ys).w i j := by
  constructor
  · unfold fit_bradley_terry
    rw [aggregate_perm h]
  · intro xs ys i j
    rw [aggregate_w, aggregate_w, aggregate_w]
    simp [winCount, List.countP_append]

theorem fit_bradley_terry_perm_invariant_witness :
    ([((0 : Player), (1 : Player)), (1, 2), (0, 1)] : List Game).Perm
        [(1, 2), (0, 1), (0, 1)] ∧
      fit_bradley_terry [(0, 1), (1, 2), (0, 1)] 10 0
        = fit_bradley_terry [(1, 2), (0, 1), (0, 1)] 10 0 :=
  ⟨by decide, (fit_bradley_terry_perm_invariant _ _ 10 0 (by decide)).1⟩

/-- Claim C5: in the MM update of `fit_bradley_terry`, a player whose
denominator `Σ_j games_ij / (p_i + p_j)` is zero keeps its current strength
value unchanged; the division `wins_i / denom_i` is taken only in the
`denom_i > 0` branch. -/
theorem rawUpdate_zero_denom (pl : Finset Player) (w n : Player → Player → Nat)
    (p : Player → ℝ) (i : Player) (h : denom pl n p i = 0) :
    rawUpdate pl w n p i = p i := by
  unfold rawUpdate
  rw [h]
  simp

theorem rawUpdate_zero_denom_witness :
    denom ({0, 1} : Finset Player) (fun _ _ => 0) (fun _ => (1 : ℝ)) 0 = 0 ∧
      rawUpdate ({0, 1} : Finset Player) (fun _ _ => 0) (fun _ _ => 0)
        (fun _ => (1 : ℝ)) 0 = 1 := by
  have hd : denom ({0, 1} : Finset Player) (fun _ _ => 0) (fun _ => (1 : ℝ)) 0 = 0 := by
    simp [denom]
  exact ⟨hd, rawUpdate_zero_denom _ _ _ _ _ hd⟩

/-- Claim C9: on the empty match list every core entry point returns its empty
result structure: `fit_bradley_terry` returns empty ratings and strengths
dicts, `mcmc_bradley_terry` returns the empty dict, and
`analyze_rating_convergence` returns the empty list. -/
theorem empty_input_empty_results (max_iter n_samples burn_in thin step_size : Nat)
    (tol proposal_std prior_std : ℝ) (rand : Nat → ℝ × ℝ) :
    fit_bradley_terry [] max_iter tol = ⟨∅, fun _ => 0, fun _ => 0⟩ ∧
      mcmc_bradley_terry [] n_samples burn_in thin proposal_std prior_std rand
        = McmcResult.empty ∧
      analyze_rating_convergence [] step_size max_iter tol = [] := by
  refine ⟨?_, ?_, ?_⟩
  · simp [fit_bradley_terry, fitAux, aggregate_matches, aggregateFrom, emptyAgg]
  · simp [mcmc_bradley_terry, aggregate_matches, aggregateFrom, emptyAgg]
  · simp [analyze_rating_convergence]

/-! ### Claim theorems: zero-mean invariants -/

theorem recenter_sum_zero (pl : Finset Player) (hpl : pl.Nonempty) (r : Player → ℝ) :
    ∑ i ∈ pl, recenter pl r i = 0 := by
  have hcard : ((pl.card : ℝ)) ≠ 0 :=
    Nat.cast_ne_zero.mpr (Finset.card_ne_zero.mpr hpl)
  unfold recenter
  rw [Finset.sum_congr rfl (fun i hi => by rw [if_pos hi])]
  rw [Finset.sum_sub_distrib, Finset.sum_const, nsmul_eq_mul,
    mul_div_cancel₀ _ hcard, sub_self]

theorem mcmcIter_samples (pl : Finset Player) (w n : Player → Player → Nat)
    (proposal_std prior_std : ℝ) (rand : Nat → ℝ × ℝ) (burn_in thin : Nat)
    (st : McmcState) (it : Nat) :
    (mcmcIter pl w n proposal_std prior_std rand burn_in thin st it).samples
        = st.samples ∨
      (mcmcIter pl w n proposal_std prior_std rand burn_in thin st it).samples
        = st.samples
            ++ [recenter pl (sweep pl w n proposal_std prior_std rand st.chain).cur] := by
  unfold mcmcIter
  by_cases hc : burn_in ≤ it ∧ (it - burn_in) % thin = 0
  · right
    rw [if_pos hc]
  · left
    rw [if_neg hc]

theorem mcmcFold_samples_zero (pl : Finset Player) (w n : Player → Player → Nat)
    (proposal_std prior_std : ℝ) (rand : Nat → ℝ × ℝ) (burn_in thin : Nat)
    (hpl : pl.Nonempty) :
    ∀ (l : List Nat) (st : McmcState),
      (∀ v ∈ st.samples, ∑ i ∈ pl, v i = 0) →
      ∀ v ∈ (l.foldl (mcmcIter pl w n proposal_std prior_std rand burn_in thin)
          st).samples, ∑ i ∈ pl, v i = 0 := by
  intro l
  induction l with
  | nil => intro st h; simpa using h
  | cons a t ih =>
      intro st h
      rw [List.foldl_cons]
      apply ih
      intro v hv
      rcases mcmcIter_samples pl w n proposal_std prior_std rand burn_in thin st a
        with hs | hs
      · exact h v (hs ▸ hv)
      · rw [hs, List.mem_append, List.mem_singleton] at hv
        rcases hv with hv | hv
        · exact h v hv
        · rw [hv]
          exact recenter_sum_zero pl hpl _

/-- Claim C4: the ratings of `fit_bradley_terry` have mean zero over the
returned player set, and every posterior sample vector retained by
`mcmc_bradley_terry` has mean zero over the player set, since samples are
recorded immediately after each sweep's zero-mean recentering (in exact real
arithmetic the tolerances of the spec collapse to equality). -/
theorem zero_mean_invariant (ms : List Game)
    (max_iter n_samples burn_in thin : Nat) (tol proposal_std prior_std : ℝ)
    (rand : Nat → ℝ × ℝ) :
    (∑ i ∈ (fit_bradley_terry ms max_iter tol).players,
        (fit_bradley_terry ms max_iter tol).ratings i)
      / ((fit_bradley_terry ms max_iter tol).players.card : ℝ) = 0 ∧
    (mcmc_bradley_terry ms n_samples burn_in thin proposal_std prior_std
        rand).samplesList.Forall
      (fun v =>
        (∑ i ∈ (mcmc_bradley_terry ms n_samples burn_in thin proposal_std prior_std
            rand).playerSet, v i)
          / ((mcmc_bradley_terry ms n_samples burn_in thin proposal_std prior_std
            rand).playerSet.card : ℝ) = 0) := by
  constructor
  · by_cases hpl : (aggregate_matches ms).players = ∅
    · simp [fit_bradley_terry, fitAux, hpl]
    · have hne : (aggregate_matches ms).players.Nonempty :=
        Finset.nonempty_iff_ne_empty.mpr hpl
      have hcard : (((aggregate_matches ms).players.card : ℝ)) ≠ 0 :=
        Nat.cast_ne_zero.mpr (Finset.card_ne_zero.mpr hne)
      simp only [fit_bradley_terry, fitAux, if_neg hpl]
      rw [Finset.sum_sub_distrib, Finset.sum_const, nsmul_eq_mul,
        mul_div_cancel₀ _ hcard, sub_self, zero_div]
  · by_cases hpl : (aggregate_matches ms).players = ∅
    · simp [mcmc_bradley_terry, hpl, McmcResult.samplesList]
    · have hne : (aggregate_matches ms).players.Nonempty :=
        Finset.nonempty_iff_ne_empty.mpr hpl
      simp only [mcmc_bradley_terry, if_neg hpl]
      rw [List.forall_iff_forall_mem]
      intro v hv
      simp only [McmcResult.samplesList, McmcResult.playerSet] at hv ⊢
      have hz := mcmcFold_samples_zero (aggregate_matches ms).players
        (aggregate_matches ms).w (aggregate_matches ms).n proposal_std prior_std
        rand burn_in thin hne (List.range (n_samples + burn_in))
        ⟨⟨fun _ => 0,
          log_posterior (aggregate_matches ms).players (aggregate_matches ms).w
            (aggregate_matches ms).n (fun _ => 0) prior_std, 0⟩, []⟩
        (by intro v hv; simp at hv) v (by exact hv)
      rw [hz, zero_div]

/-! ### Claim theorems: convergence trace shape -/

theorem convPointAt_num (ms : List Game) (max_iter : Nat) (tol : ℝ)
    (prev : Option (Finset Player × (Player → ℝ))) (i : Nat) :
    (convPointAt ms max_iter tol prev i).num_matches = i := rfl

theorem convTrace_map_num (ms : List Game) (max_iter : Nat) (tol : ℝ) :
    ∀ (idxs : List Nat) (prev : Option (Finset Player × (Player → ℝ))),
      (convTrace ms max_iter tol prev idxs).map ConvPoint.num_matches = idxs := by
  intro idxs
  induction idxs with
  | nil => intro prev; simp [convTrace]
  | cons i rest ih =>
      intro prev
      simp only [convTrace, List.map_cons, ih, convPointAt_num]

theorem chain'_lt_range' (step : Nat) (hstep : 0 < step) :
    ∀ (k s : Nat), List.Chain' (· < ·) (List.range' s k step) := by
  intro k
  induction k with
  | zero => intro s; simp
  | succ k ih =>
      intro s
      rw [List.range'_succ]
      cases k with
      | zero => simp
      | succ k2 =>
          rw [List.range'_succ, List.chain'_cons]
          exact ⟨by omega, by rw [← List.range'_succ]; exact ih (s + step)⟩

theorem getLast_range' (s step : Nat) : ∀ (k : Nat), 0 < k →
    (List.range' s k step).getLast? = some (s + step * (k - 1)) := by
  intro k hk
  cases k with
  | zero => omega
  | succ k2 =>
      rw [List.range'_concat, List.getLast?_concat]
      simp

/-- Claim C8: for a non-empty match list and `step_size ≥ 1`, the trace of
`analyze_rating_convergence` covers exactly the prefixes of length
`step_size, 2*step_size, ...` with one final full-length point appended when
the length is not an exact multiple of `step_size`; its `num_matches` values
strictly increase and the final entry equals the total match count. -/
theorem analyze_rating_convergence_trace (ms : List Game)
    (step_size max_iter : Nat) (tol : ℝ) (hms : ms ≠ []) (hs : 1 ≤ step_size) :
    (analyze_rating_convergence ms step_size max_iter tol).map
        ConvPoint.num_matches
      = List.range' step_size (ms.length / step_size) step_size ++
          (if ms.length % step_size = 0 then [] else [ms.length]) ∧
    List.Chain' (· < ·)
      ((analyze_rating_convergence ms step_size max_iter tol).map
        ConvPoint.num_matches) ∧
    ((analyze_rating_convergence ms step_size max_iter tol).map
        ConvPoint.num_matches).getLast? = some ms.length := by
  have hmap : (analyze_rating_convergence ms step_size max_iter tol).map
      ConvPoint.num_matches
      = List.range' step_size (ms.length / step_size) step_size ++
          (if ms.length % step_size = 0 then [] else [ms.length]) := by
    unfold analyze_rating_convergence
    rw [if_neg hms]
    exact convTrace_map_num ms max_iter tol _ none
  refine ⟨hmap, ?_, ?_⟩
  · rw [hmap]
    by_cases h0 : ms.length % step_size = 0
    · rw [if_pos h0, List.append_nil]
      exact chain'_lt_range' step_size (by omega) _ _
    · rw [if_neg h0, List.chain'_append]
      refine ⟨chain'_lt_range' step_size (by omega) _ _, by simp, ?_⟩
      intro x hx y hy
      simp only [List.head?_cons, Option.mem_def, Option.some.injEq] at hy
      subst hy
      rcases Nat.eq_zero_or_pos (ms.length / step_size) with hq | hq
      · rw [hq] at hx
        simp at hx
      · rw [getLast_range' _ _ _ hq] at hx
        simp only [Option.mem_def, Option.some.injEq] at hx
        subst hx
        have hdm := Nat.div_add_mod ms.length step_size
        have hq1 : ms.length / step_size - 1 + 1 = ms.length / step_size := by
          omega
        have hmul : step_size * (ms.length / step_size - 1) + step_size
            = step_size * (ms.length / step_size) := by
          calc step_size * (ms.length / step_size - 1) + step_size
              = step_size * (ms.length / step_size - 1 + 1) := by ring
            _ = step_size * (ms.length / step_size) := by rw [hq1]
        omega
  · rw [hmap]
    by_cases h0 : ms.length % step_size = 0
    · rw [if_pos h0, List.append_nil]
      have hlen : 0 < ms.length := List.length_pos.mpr hms
      have hdvd : step_size ∣ ms.length := Nat.dvd_of_mod_eq_zero h0
      have hq : 0 < ms.length / step_size :=
        Nat.div_pos (Nat.le_of_dvd hlen hdvd) (by omega)
      rw [getLast_range' _ _ _ hq]
      have hdm := Nat.div_add_mod ms.length step_size
      have hq1 : ms.length / step_size - 1 + 1 = ms.length / step_size := by
        omega
      have hmul : step_size * (ms.length / step_size - 1) + step_size
          = step_size * (ms.length / step_size) := by
        calc step_size * (ms.length / step_size - 1) + step_size
            = step_size * (ms.length / step_size - 1 + 1) := by ring
          _ = step_size * (ms.length / step_size) := by rw [hq1]
      congr 1
      omega
    · rw [if_neg h0, List.getLast?_concat]

theorem analyze_rating_convergence_trace_witness :
    (([((0 : Player), (1 : Player)), (1, 0), (0, 1)] : List Game) ≠ []) ∧
      (1 : Nat) ≤ 2 ∧
      ((analyze_rating_convergence [(0, 1), (1, 0), (0, 1)] 2 5 0).map
          ConvPoint.num_matches).getLast? = some 3 :=
  ⟨by simp, by omega,
    (analyze_rating_convergence_trace [(0, 1), (1, 0), (0, 1)] 2 5 0
      (by simp) (by omega)).2.2⟩

/-! ### Claim theorems: the Bayesian log posterior -/

theorem logSumPair_eq (a b : ℝ) :
    logSumPair a b = Real.log (Real.exp a + Real.exp b) := by
  unfold logSumPair
  rw [Real.exp_sub, Real.exp_sub, div_add_div_same,
    Real.log_div (by positivity) (Real.exp_ne_zero _), Real.log_exp]
  ring

/-- Claim C3 (amended): on tallies satisfying `n i j = w i j + w j i` (as all
tallies produced by `aggregate_matches` do), `log_posterior` returns the
Gaussian log-prior plus the once-per-game Bradley-Terry log-likelihood plus
one extra copy of `w i j * log P(i beats j)` for every ordered pair with wins
in both directions — such pairs' games are counted twice, not once; the
max-shifted log-sum-exp evaluates to exactly `log(exp r_i + exp r_j)`. -/
theorem log_posterior_pair_decomposition (pl : Finset Player)
    (w n : Player → Player → Nat) (r : Player → ℝ) (σ : ℝ)
    (hn : ∀ i j, n i j = w i j + w j i) :
    log_posterior pl w n r σ
      = specOncePosterior pl w r σ
        + ∑ i ∈ pl, ∑ j ∈ pl,
            if 0 < w i j ∧ 0 < w j i then
              (w i j : ℝ) * (r i - Real.log (Real.exp (r i) + Real.exp (r j)))
            else 0 := by
  unfold log_posterior specOncePosterior
  have hpoint : ∀ i j,
      (if 0 < w i j ∧ 0 < n i j then
        (w i j : ℝ) * (r i - logSumPair (r i) (r j))
          + ((n i j : ℝ) - (w i j : ℝ)) * (r j - logSumPair (r i) (r j))
      else 0)
      = (w i j : ℝ) * (r i - Real.log (Real.exp (r i) + Real.exp (r j)))
        + (if 0 < w i j ∧ 0 < w j i then
            (w j i : ℝ) * (r j - Real.log (Real.exp (r i) + Real.exp (r j)))
          else 0) := by
    intro i j
    rw [logSumPair_eq]
    rcases Nat.eq_zero_or_pos (w i j) with h1 | h1
    · rw [h1]
      simp
    · have hnpos : 0 < n i j := by rw [hn]; omega
      rw [if_pos ⟨h1, hnpos⟩]
      have hc : ((n i j : ℝ) - (w i j : ℝ)) = (w j i : ℝ) := by
        rw [hn]; push_cast; ring
      rw [hc]
      rcases Nat.eq_zero_or_pos (w j i) with h2 | h2
      · rw [if_neg fun hh => by rw [h2] at hh; exact lt_irrefl 0 hh.2, h2]
        simp
      · rw [if_pos ⟨h1, h2⟩]
  have key : (∑ i ∈ pl, ∑ j ∈ pl,
      if 0 < w i j ∧ 0 < n i j then
        (w i j : ℝ) * (r i - logSumPair (r i) (r j))
          + ((n i j : ℝ) - (w i j : ℝ)) * (r j - logSumPair (r i) (r j))
      else 0)
      = (∑ i ∈ pl, ∑ j ∈ pl,
          (w i j : ℝ) * (r i - Real.log (Real.exp (r i) + Real.exp (r j))))
        + ∑ i ∈ pl, ∑ j ∈ pl,
            if 0 < w i j ∧ 0 < w j i then
              (w i j : ℝ) * (r i - Real.log (Real.exp (r i) + Real.exp (r j)))
            else 0 := by
    rw [Finset.sum_congr rfl fun i _ => Finset.sum_congr rfl fun j _ => hpoint i j]
    rw [Finset.sum_congr rfl fun i _ => Finset.sum_add_distrib, Finset.sum_add_distrib]
    congr 1
    rw [Finset.sum_comm]
    refine Finset.sum_congr rfl fun i _ => Finset.sum_congr rfl fun j _ => ?_
    rw [add_comm (Real.exp (r j)) (Real.exp (r i))]
    by_cases h : 0 < w i j ∧ 0 < w j i
    · rw [if_pos ⟨h.2, h.1⟩, if_pos h]
    · rw [if_neg (fun hh => h ⟨hh.2, hh.1⟩), if_neg h]
  rw [key]
  ring

theorem log_posterior_pair_decomposition_witness :
    (∀ i j, (aggregate_matches [((0 : Player), (1 : Player)), (1, 0)]).n i j
        = (aggregate_matches [((0 : Player), (1 : Player)), (1, 0)]).w i j
          + (aggregate_matches [((0 : Player), (1 : Player)), (1, 0)]).w j i) ∧
    log_posterior (aggregate_matches [((0 : Player), (1 : Player)), (1, 0)]).players
        (aggregate_matches [((0 : Player), (1 : Player)), (1, 0)]).w
        (aggregate_matches [((0 : Player), (1 : Player)), (1, 0)]).n
        (fun _ => 0) 2
      = specOncePosterior
          (aggregate_matches [((0 : Player), (1 : Player)), (1, 0)]).players
          (aggregate_matches [((0 : Player), (1 : Player)), (1, 0)]).w
          (fun _ => 0) 2
        + ∑ i ∈ (aggregate_matches [((0 : Player), (1 : Player)), (1, 0)]).players,
            ∑ j ∈ (aggregate_matches [((0 : Player), (1 : Player)), (1, 0)]).players,
            if 0 < (aggregate_matches [((0 : Player), (1 : Player)), (1, 0)]).w i j
                ∧ 0 < (aggregate_matches [((0 : Player), (1 : Player)), (1, 0)]).w j i then
              ((aggregate_matches [((0 : Player), (1 : Player)), (1, 0)]).w i j : ℝ)
                * ((fun _ => (0 : ℝ)) i
                    - Real.log (Real.exp ((fun _ => (0 : ℝ)) i)
                        + Real.exp ((fun _ => (0 : ℝ)) j)))
            else 0 := by
  have hn : ∀ i j, (aggregate_matches [((0 : Player), (1 : Player)), (1, 0)]).n i j
      = (aggregate_matches [((0 : Player), (1 : Player)), (1, 0)]).w i j
        + (aggregate_matches [((0 : Player), (1 : Player)), (1, 0)]).w j i := by
    intro i j
    rw [aggregate_n, aggregate_w, aggregate_w]
  exact ⟨hn, log_posterior_pair_decomposition _ _ _ _ _ hn⟩

/-- Claim C3 counterexample: on the match list `[(0,1), (1,0)]` (one win in
each direction), at the all-zero log-ratings with `prior_std = 2`, the code's
`log_posterior` returns `-(4 log 2)` while the once-per-game Bradley-Terry
log-likelihood plus prior is `-(2 log 2)`; the two differ, so the tallied
games do not each contribute exactly once. -/
theorem log_posterior_counts_twice :
    log_posterior (aggregate_matches [((0 : Player), (1 : Player)), (1, 0)]).players
        (aggregate_matches [((0 : Player), (1 : Player)), (1, 0)]).w
        (aggregate_matches [((0 : Player), (1 : Player)), (1, 0)]).n
        (fun _ => 0) 2
      = -(4 * Real.log 2) ∧
    specOncePosterior
        (aggregate_matches [((0 : Player), (1 : Player)), (1, 0)]).players
        (aggregate_matches [((0 : Player), (1 : Player)), (1, 0)]).w
        (fun _ => 0) 2
      = -(2 * Real.log 2) ∧
    log_posterior (aggregate_matches [((0 : Player), (1 : Player)), (1, 0)]).players
        (aggregate_matches [((0 : Player), (1 : Player)), (1, 0)]).w
        (aggregate_matches [((0 : Player), (1 : Player)), (1, 0)]).n
        (fun _ => 0) 2
      ≠ specOncePosterior
          (aggregate_matches [((0 : Player), (1 : Player)), (1, 0)]).players
          (aggregate_matches [((0 : Player), (1 : Player)), (1, 0)]).w
          (fun _ => 0) 2 := by
  have h01 : ((0 : Player)) ≠ 1 := by decide
  have hpl : (aggregate_matches [((0 : Player), (1 : Player)), (1, 0)]).players
      = ({0, 1} : Finset Player) := by
    rw [aggregate_players]
    decide
  have hw00 : (aggregate_matches [((0 : Player), (1 : Player)), (1, 0)]).w 0 0 = 0 := by
    rw [aggregate_w]; decide
  have hw01 : (aggregate_matches [((0 : Player), (1 : Player)), (1, 0)]).w 0 1 = 1 := by
    rw [aggregate_w]; decide
  have hw10 : (aggregate_matches [((0 : Player), (1 : Player)), (1, 0)]).w 1 0 = 1 := by
    rw [aggregate_w]; decide
  have hw11 : (aggregate_matches [((0 : Player), (1 : Player)), (1, 0)]).w 1 1 = 0 := by
    rw [aggregate_w]; decide
  have hn01 : (aggregate_matches [((0 : Player), (1 : Player)), (1, 0)]).n 0 1 = 2 := by
    rw [aggregate_n]; decide
  have hn10 : (aggregate_matches [((0 : Player), (1 : Player)), (1, 0)]).n 1 0 = 2 := by
    rw [aggregate_n]; decide
  have hlog : Real.log 2 > 0 := Real.log_pos (by norm_num)
  have hcode : log_posterior
      (aggregate_matches [((0 : Player), (1 : Player)), (1, 0)]).players
      (aggregate_matches [((0 : Player), (1 : Player)), (1, 0)]).w
      (aggregate_matches [((0 : Player), (1 : Player)), (1, 0)]).n
      (fun _ => 0) 2 = -(4 * Real.log 2) := by
    unfold log_posterior
    rw [hpl]
    rw [Finset.sum_pair h01, Finset.sum_pair h01, Finset.sum_pair h01,
      Finset.sum_pair h01]
    rw [hw00, hw01, hw10, hw11, hn01, hn10]
    norm_num [logSumPair, Real.exp_zero]
    ring
  have hspec : specOncePosterior
      (aggregate_matches [((0 : Player), (1 : Player)), (1, 0)]).players
      (aggregate_matches [((0 : Player), (1 : Player)), (1, 0)]).w
      (fun _ => 0) 2 = -(2 * Real.log 2) := by
    unfold specOncePosterior
    rw [hpl]
    rw [Finset.sum_pair h01, Finset.sum_pair h01, Finset.sum_pair h01,
      Finset.sum_pair h01]
    rw [hw00, hw01, hw10, hw11]
    norm_num [Real.exp_zero]
    ring
  refine ⟨hcode, hspec, ?_⟩
  rw [hcode, hspec]
  intro hcontra
  nlinarith

/-! ### Claim theorems: the Metropolis sweep -/

theorem playerStep_cache (pl : Finset Player) (w n : Player → Player → Nat)
    (proposal_std prior_std : ℝ) (rand : Nat → ℝ × ℝ) (s : ChainState)
    (q : Player) (hcache : s.clp = log_posterior pl w n s.cur prior_std) :
    (playerStep pl w n proposal_std prior_std rand s q).clp
      = log_posterior pl w n
          (playerStep pl w n proposal_std prior_std rand s q).cur prior_std := by
  unfold playerStep
  by_cases hacc : Real.log (rand s.k).2
      < log_posterior pl w n
          (Function.update s.cur q (s.cur q + proposal_std * (rand s.k).1))
          prior_std
        - s.clp
  · rw [if_pos hacc]
  · rw [if_neg hacc]
    exact hcache

theorem foldl_playerStep_cache (pl : Finset Player) (w n : Player → Player → Nat)
    (proposal_std prior_std : ℝ) (rand : Nat → ℝ × ℝ) :
    ∀ (l : List Player) (s : ChainState),
      s.clp = log_posterior pl w n s.cur prior_std →
      (List.foldl (playerStep pl w n proposal_std prior_std rand) s l).clp
        = log_posterior pl w n
            (List.foldl (playerStep pl w n proposal_std prior_std rand) s l).cur
            prior_std := by
  intro l
  induction l with
  | nil => intro s hs; simpa using hs
  | cons a t ih =>
      intro s hs
      rw [List.foldl_cons]
      exact ih _ (playerStep_cache pl w n proposal_std prior_std rand s a hs)

/-- Claim C6: one sweep of `mcmc_bradley_terry` visits the players in the fixed
deterministic sorted order; for each player it proposes
`r_q + proposal_std * z` from the injected draw, accepts exactly when
`log u < logpost(proposed) - logpost(current)` (installing the proposed vector
and its log-posterior), otherwise keeps the state; accepted updates take
effect immediately, so the remaining players of the sweep fold over the
already-updated state; and the cached log-probability always equals the log
posterior of the current ratings. -/
theorem sweep_metropolis_characterization (pl : Finset Player)
    (w n : Player → Player → Nat) (proposal_std prior_std : ℝ)
    (rand : Nat → ℝ × ℝ) (s : ChainState) (q : Player) (qs : List Player)
    (hcache : s.clp = log_posterior pl w n s.cur prior_std) :
    (sweep pl w n proposal_std prior_std rand s
        = (pl.sort (· ≤ ·)).foldl
            (playerStep pl w n proposal_std prior_std rand) s) ∧
    (List.foldl (playerStep pl w n proposal_std prior_std rand) s (q :: qs)
        = List.foldl (playerStep pl w n proposal_std prior_std rand)
            (playerStep pl w n proposal_std prior_std rand s q) qs) ∧
    (playerStep pl w n proposal_std prior_std rand s q
        = if Real.log (rand s.k).2
              < log_posterior pl w n
                  (Function.update s.cur q (s.cur q + proposal_std * (rand s.k).1))
                  prior_std
                - log_posterior pl w n s.cur prior_std then
            ⟨Function.update s.cur q (s.cur q + proposal_std * (rand s.k).1),
              log_posterior pl w n
                (Function.update s.cur q (s.cur q + proposal_std * (rand s.k).1))
                prior_std,
              s.k + 1⟩
          else ⟨s.cur, log_posterior pl w n s.cur prior_std, s.k + 1⟩) ∧
    ((playerStep pl w n proposal_std prior_std rand s q).clp
        = log_posterior pl w n
            (playerStep pl w n proposal_std prior_std rand s q).cur prior_std) ∧
    ((sweep pl w n proposal_std prior_std rand s).clp
        = log_posterior pl w n
            (sweep pl w n proposal_std prior_std rand s).cur prior_std) := by
  refine ⟨rfl, List.foldl_cons _ _, ?_,
    playerStep_cache pl w n proposal_std prior_std rand s q hcache,
    foldl_playerStep_cache pl w n proposal_std prior_std rand _ s hcache⟩
  unfold playerStep
  rw [hcache]

theorem sweep_metropolis_characterization_witness :
    ((⟨fun _ => 0,
        log_posterior ({0, 1} : Finset Player) (fun _ _ => 0) (fun _ _ => 0)
          (fun _ => 0) 2, 0⟩ : ChainState).clp
      = log_posterior ({0, 1} : Finset Player) (fun _ _ => 0) (fun _ _ => 0)
          (⟨fun _ => 0,
            log_posterior ({0, 1} : Finset Player) (fun _ _ => 0) (fun _ _ => 0)
              (fun _ => 0) 2, 0⟩ : ChainState).cur 2) ∧
    (playerStep ({0, 1} : Finset Player) (fun _ _ => 0) (fun _ _ => 0) 1 2
        (fun _ => ((0 : ℝ), (1 : ℝ)))
        (⟨fun _ => 0,
          log_posterior ({0, 1} : Finset Player) (fun _ _ => 0) (fun _ _ => 0)
            (fun _ => 0) 2, 0⟩ : ChainState) 0).clp
      = log_posterior ({0, 1} : Finset Player) (fun _ _ => 0) (fun _ _ => 0)
          (playerStep ({0, 1} : Finset Player) (fun _ _ => 0) (fun _ _ => 0) 1 2
            (fun _ => ((0 : ℝ), (1 : ℝ)))
            (⟨fun _ => 0,
              log_posterior ({0, 1} : Finset Player) (fun _ _ => 0) (fun _ _ => 0)
                (fun _ => 0) 2, 0⟩ : ChainState) 0).cur 2 :=
  ⟨rfl,
    (sweep_metropolis_characterization ({0, 1} : Finset Player) (fun _ _ => 0)
      (fun _ _ => 0) 1 2 (fun _ => ((0 : ℝ), (1 : ℝ))) _ 0 [1] rfl).2.2.2.1⟩

/-! ### Claim C2 support: one full MM iteration (raw update, epsilon clamp,
geometric-mean renormalization) never decreases the Bradley-Terry
log-likelihood when the incoming strengths all sit at or above the clamp
floor `btEps` (as the all-ones initial vector does). -/

theorem log_diff_le (a b : ℝ) (ha : 0 < a) (hb : 0 < b) :
    a * (Real.log b - Real.log a) ≤ b - a := by
  have h1 := Real.log_le_sub_one_of_pos (show 0 < b / a by positivity)
  rw [Real.log_div hb.ne' ha.ne'] at h1
  have h2 : a * (Real.log b - Real.log a) ≤ a * (b / a - 1) :=
    mul_le_mul_of_nonneg_left h1 ha.le
  calc a * (Real.log b - Real.log a) ≤ a * (b / a - 1) := h2
    _ = b - a := by field_simp

theorem pair_log_bound (wij a b : ℝ) (hw : 0 ≤ wij) (ha : 0 < a) (hb : 0 < b) :
    wij * (Real.log b - Real.log a) ≤ wij * (b / a - 1) := by
  apply mul_le_mul_of_nonneg_left _ hw
  have h := log_diff_le a b ha hb
  have he : b / a - 1 = (b - a) / a := by field_simp
  rw [he, le_div_iff₀ ha]
  nlinarith [h]

theorem gcomp_le_of_ge (t d a b : ℝ) (ht : 0 ≤ t) (ha : 0 < a) (hab : a ≤ b)
    (hda : t ≤ d * a) :
    t * Real.log b - d * b ≤ t * Real.log a - d * a := by
  have hb : 0 < b := lt_of_lt_of_le ha hab
  have h1 := log_diff_le a b ha hb
  nlinarith [mul_le_mul_of_nonneg_left h1 ht,
    mul_le_mul_of_nonneg_right hda (sub_nonneg.mpr hab), ha]

theorem gcomp_le_of_le (t d a b : ℝ) (hd : 0 ≤ d) (hb : 0 < b) (hba : b ≤ a)
    (hda : d * a ≤ t) :
    t * Real.log b - d * b ≤ t * Real.log a - d * a := by
  have ha : 0 < a := lt_of_lt_of_le hb hba
  have ht : 0 ≤ t := le_trans (mul_nonneg hd ha.le) hda
  have h1 := log_diff_le a b ha hb
  nlinarith [mul_le_mul_of_nonneg_left h1 ht,
    mul_le_mul_of_nonneg_right hda (sub_nonneg.mpr (le_refl b)), ha,
    mul_le_mul_of_nonneg_right hda (sub_nonneg.mpr hba)]

theorem component_step (t d x eps : ℝ) (ht : 0 ≤ t) (hd : 0 ≤ d) (heps : 0 < eps)
    (hx : eps ≤ x) (hdt : d = 0 → t = 0) :
    t * Real.log x - d * x
      ≤ t * Real.log (max (if 0 < d then t / d else x) eps)
        - d * max (if 0 < d then t / d else x) eps := by
  rcases eq_or_lt_of_le hd with hd0 | hdpos
  · have ht0 : t = 0 := hdt hd0.symm
    rw [ht0, ← hd0]
    simp
  · rw [if_pos hdpos]
    have hc_eps : eps ≤ max (t / d) eps := le_max_right _ _
    have hcpos : 0 < max (t / d) eps := lt_of_lt_of_le heps hc_eps
    have hxpos : 0 < x := lt_of_lt_of_le heps hx
    rcases le_total x (max (t / d) eps) with hxc | hcx
    · rcases le_total (t / d) eps with htd | htd
      · have hceq : max (t / d) eps = eps := max_eq_right htd
        have hxeq : x = eps := le_antisymm (hceq ▸ hxc) hx
        rw [hceq, hxeq]
      · have hceq : max (t / d) eps = t / d := max_eq_left htd
        refine gcomp_le_of_le t d (max (t / d) eps) x hd hxpos hxc ?_
        rw [hceq, mul_comm, div_mul_cancel₀ t hdpos.ne']
    · have htc : t ≤ d * max (t / d) eps := by
        have h1 : t / d ≤ max (t / d) eps := le_max_left _ _
        calc t = d * (t / d) := by rw [mul_comm, div_mul_cancel₀ t hdpos.ne']
          _ ≤ d * max (t / d) eps := mul_le_mul_of_nonneg_left h1 hdpos.le
      exact gcomp_le_of_ge t d (max (t / d) eps) x ht hcpos hcx htc

theorem denom_eq (pl : Finset ℕ) (n : ℕ → ℕ → ℕ) (p : ℕ → ℝ) (i : ℕ) :
    denom pl n p i = ∑ j ∈ pl, (n i j : ℝ) / (p i + p j) := by
  unfold denom
  refine Finset.sum_congr rfl fun j hj => ?_
  rcases Nat.eq_zero_or_pos (n i j) with h | h
  · rw [h]; simp
  · rw [if_pos h]

theorem denom_nonneg (pl : Finset ℕ) (n : ℕ → ℕ → ℕ) (p : ℕ → ℝ)
    (hp : ∀ j ∈ pl, 0 < p j) (i : ℕ) (hi : i ∈ pl) :
    0 ≤ denom pl n p i := by
  unfold denom
  refine Finset.sum_nonneg fun j hj => ?_
  rcases Nat.eq_zero_or_pos (n i j) with h | h
  · rw [h]; simp
  · rw [if_pos h]
    have hpp := add_pos (hp i hi) (hp j hj)
    positivity

theorem totalWins_zero_of_denom_zero (pl : Finset ℕ) (w n : ℕ → ℕ → ℕ)
    (hn : ∀ i j, n i j = w i j + w j i) (p : ℕ → ℝ)
    (hp : ∀ j ∈ pl, 0 < p j) (i : ℕ) (hi : i ∈ pl)
    (h : denom pl n p i = 0) : totalWins pl w i = 0 := by
  unfold denom at h
  have hnn : ∀ j ∈ pl, 0 ≤ (if 0 < n i j then (n i j : ℝ) / (p i + p j) else 0) := by
    intro j hj
    rcases Nat.eq_zero_or_pos (n i j) with h0 | h0
    · rw [h0]; simp
    · rw [if_pos h0]
      have hpp := add_pos (hp i hi) (hp j hj)
      positivity
  have hterm := (Finset.sum_eq_zero_iff_of_nonneg hnn).mp h
  unfold totalWins
  refine Finset.sum_eq_zero fun j hj => ?_
  have ht := hterm j hj
  rcases Nat.eq_zero_or_pos (n i j) with h0 | h0
  · have := hn i j
    omega
  · rw [if_pos h0] at ht
    exfalso
    have hpp := add_pos (hp i hi) (hp j hj)
    have hcast : (0:ℝ) < (n i j : ℝ) := by exact_mod_cast h0
    have hpos : 0 < (n i j : ℝ) / (p i + p j) := by positivity
    exact absurd ht hpos.ne'

theorem sum_w_ratio (pl : Finset ℕ) (w n : ℕ → ℕ → ℕ)
    (hn : ∀ i j, n i j = w i j + w j i) (p x : ℕ → ℝ) :
    ∑ i ∈ pl, ∑ j ∈ pl, (w i j : ℝ) * ((x i + x j) / (p i + p j))
      = ∑ i ∈ pl, x i * denom pl n p i := by
  have hrhs : ∑ i ∈ pl, x i * denom pl n p i
      = ∑ i ∈ pl, ∑ j ∈ pl, (n i j : ℝ) * (x i / (p i + p j)) := by
    refine Finset.sum_congr rfl fun i hi => ?_
    rw [denom_eq pl n p i, Finset.mul_sum]
    refine Finset.sum_congr rfl fun j hj => ?_
    ring
  rw [hrhs]
  have hsplit : ∑ i ∈ pl, ∑ j ∈ pl, (n i j : ℝ) * (x i / (p i + p j))
      = (∑ i ∈ pl, ∑ j ∈ pl, (w i j : ℝ) * (x i / (p i + p j)))
        + ∑ i ∈ pl, ∑ j ∈ pl, (w j i : ℝ) * (x i / (p i + p j)) := by
    rw [← Finset.sum_add_distrib]
    refine Finset.sum_congr rfl fun i hi => ?_
    rw [← Finset.sum_add_distrib]
    refine Finset.sum_congr rfl fun j hj => ?_
    rw [hn]
    push_cast
    ring
  rw [hsplit]
  have hswap : ∑ i ∈ pl, ∑ j ∈ pl, (w j i : ℝ) * (x i / (p i + p j))
      = ∑ i ∈ pl, ∑ j ∈ pl, (w i j : ℝ) * (x j / (p i + p j)) := by
    rw [Finset.sum_comm]
    refine Finset.sum_congr rfl fun i hi => Finset.sum_congr rfl fun j hj => ?_
    rw [add_comm (p j) (p i)]
  rw [hswap, ← Finset.sum_add_distrib]
  refine Finset.sum_congr rfl fun i hi => ?_
  rw [← Finset.sum_add_distrib]
  refine Finset.sum_congr rfl fun j hj => ?_
  ring

theorem log_likelihood_smul (pl : Finset ℕ) (w : ℕ → ℕ → ℕ) (q : ℕ → ℝ) (c : ℝ)
    (hc : 0 < c) (hq : ∀ i ∈ pl, 0 < q i) :
    log_likelihood pl w (fun i => q i * c) = log_likelihood pl w q := by
  unfold log_likelihood
  refine Finset.sum_congr rfl fun i hi => Finset.sum_congr rfl fun j hj => ?_
  have hqi := hq i hi
  have hqj := hq j hj
  have h2 : q i * c + q j * c = (q i + q j) * c := by ring
  rw [Real.log_mul hqi.ne' hc.ne', h2, Real.log_mul (add_pos hqi hqj).ne' hc.ne']
  ring

theorem btStep_log_likelihood_mono (pl : Finset ℕ) (w n : ℕ → ℕ → ℕ)
    (hn : ∀ i j, n i j = w i j + w j i) (p : ℕ → ℝ)
    (hp : ∀ i ∈ pl, btEps ≤ p i) :
    log_likelihood pl w p ≤ log_likelihood pl w (btStep pl w n p) := by
  have heps : (0:ℝ) < btEps := by unfold btEps; positivity
  have hp' : ∀ i ∈ pl, 0 < p i := fun i hi => lt_of_lt_of_le heps (hp i hi)
  set q := clampedUpdate pl w n p with hqdef
  have hq_eps : ∀ i, btEps ≤ q i := fun i => le_max_right _ _
  have hq' : ∀ i ∈ pl, 0 < q i := fun i _ => lt_of_lt_of_le heps (hq_eps i)
  have hsc : log_likelihood pl w (btStep pl w n p) = log_likelihood pl w q := by
    have hfac : 0 < renormFactor pl q := Real.exp_pos _
    have hbs : btStep pl w n p = fun i => q i * renormFactor pl q := rfl
    rw [hbs]
    exact log_likelihood_smul pl w q _ hfac hq'
  rw [hsc]
  have hS2 := sum_w_ratio pl w n hn p q
  have hS3' := sum_w_ratio pl w n hn p p
  have hS3 : ∑ i ∈ pl, ∑ j ∈ pl, (w i j : ℝ) = ∑ i ∈ pl, p i * denom pl n p i := by
    rw [← hS3']
    refine Finset.sum_congr rfl fun i hi => Finset.sum_congr rfl fun j hj => ?_
    rw [div_self (add_pos (hp' i hi) (hp' j hj)).ne', mul_one]
  have hS1 : ∑ i ∈ pl, ∑ j ∈ pl, (w i j : ℝ) * (Real.log (q i) - Real.log (p i))
      = ∑ i ∈ pl, (totalWins pl w i : ℝ) * (Real.log (q i) - Real.log (p i)) := by
    refine Finset.sum_congr rfl fun i _ => ?_
    rw [← Finset.sum_mul]
    congr 1
    unfold totalWins
    push_cast
    rfl
  have hpoint : ∀ i ∈ pl, ∀ j ∈ pl,
      (w i j : ℝ) * (Real.log (q i) - Real.log (p i))
        - (w i j : ℝ) * ((q i + q j) / (p i + p j)) + (w i j : ℝ)
      ≤ (w i j : ℝ) * (Real.log (q i) - Real.log (q i + q j))
        - (w i j : ℝ) * (Real.log (p i) - Real.log (p i + p j)) := by
    intro i hi j hj
    have hP := add_pos (hp' i hi) (hp' j hj)
    have hQ := add_pos (hq' i hi) (hq' j hj)
    have hb := pair_log_bound (w i j) (p i + p j) (q i + q j)
      (by positivity) hP hQ
    have hexp : (w i j : ℝ) * ((q i + q j) / (p i + p j) - 1)
        = (w i j : ℝ) * ((q i + q j) / (p i + p j)) - (w i j : ℝ) := by ring
    have hexp2 : (w i j : ℝ) * (Real.log (q i + q j) - Real.log (p i + p j))
        = (w i j : ℝ) * Real.log (q i + q j)
          - (w i j : ℝ) * Real.log (p i + p j) := by ring
    nlinarith [hb]
  have hsum_low : ∑ i ∈ pl, ∑ j ∈ pl,
      ((w i j : ℝ) * (Real.log (q i) - Real.log (p i))
        - (w i j : ℝ) * ((q i + q j) / (p i + p j)) + (w i j : ℝ))
      ≤ ∑ i ∈ pl, ∑ j ∈ pl,
        ((w i j : ℝ) * (Real.log (q i) - Real.log (q i + q j))
          - (w i j : ℝ) * (Real.log (p i) - Real.log (p i + p j))) :=
    Finset.sum_le_sum fun i hi => Finset.sum_le_sum fun j hj => hpoint i hi j hj
  have hsplitL : ∑ i ∈ pl, ∑ j ∈ pl,
      ((w i j : ℝ) * (Real.log (q i) - Real.log (p i))
        - (w i j : ℝ) * ((q i + q j) / (p i + p j)) + (w i j : ℝ))
      = (∑ i ∈ pl, (totalWins pl w i : ℝ) * (Real.log (q i) - Real.log (p i)))
        - (∑ i ∈ pl, q i * denom pl n p i)
        + ∑ i ∈ pl, p i * denom pl n p i := by
    rw [← hS1, ← hS2, ← hS3, ← Finset.sum_sub_distrib, ← Finset.sum_add_distrib]
    refine Finset.sum_congr rfl fun i _ => ?_
    rw [← Finset.sum_sub_distrib, ← Finset.sum_add_distrib]
  have hsplitR : ∑ i ∈ pl, ∑ j ∈ pl,
      ((w i j : ℝ) * (Real.log (q i) - Real.log (q i + q j))
        - (w i j : ℝ) * (Real.log (p i) - Real.log (p i + p j)))
      = log_likelihood pl w q - log_likelihood pl w p := by
    unfold log_likelihood
    rw [← Finset.sum_sub_distrib]
    refine Finset.sum_congr rfl fun i _ => ?_
    rw [← Finset.sum_sub_distrib]
  have hcomp : ∀ i ∈ pl,
      (totalWins pl w i : ℝ) * Real.log (p i) - denom pl n p i * p i
        ≤ (totalWins pl w i : ℝ) * Real.log (q i) - denom pl n p i * q i := by
    intro i hi
    have hq_form : q i
        = max (if 0 < denom pl n p i then
            (totalWins pl w i : ℝ) / denom pl n p i else p i) btEps := rfl
    rw [hq_form]
    exact component_step _ _ _ _ (by positivity)
      (denom_nonneg pl n p hp' i hi) heps (hp i hi)
      (fun h0 => by
        rw [totalWins_zero_of_denom_zero pl w n hn p hp' i hi h0]
        exact Nat.cast_zero)
  have hG : ∑ i ∈ pl, ((totalWins pl w i : ℝ) * Real.log (p i) - denom pl n p i * p i)
      ≤ ∑ i ∈ pl, ((totalWins pl w i : ℝ) * Real.log (q i) - denom pl n p i * q i) :=
    Finset.sum_le_sum hcomp
  have halg : (∑ i ∈ pl, (totalWins pl w i : ℝ) * (Real.log (q i) - Real.log (p i)))
      - (∑ i ∈ pl, q i * denom pl n p i) + (∑ i ∈ pl, p i * denom pl n p i)
      = (∑ i ∈ pl, ((totalWins pl w i : ℝ) * Real.log (q i) - denom pl n p i * q i))
        - ∑ i ∈ pl, ((totalWins pl w i : ℝ) * Real.log (p i) - denom pl n p i * p i) := by
    rw [← Finset.sum_sub_distrib, ← Finset.sum_sub_distrib, ← Finset.sum_add_distrib]
    refine Finset.sum_congr rfl fun i _ => ?_
    ring
  rw [hsplitL, hsplitR, halg] at hsum_low
  linarith [hG, hsum_low]

/-- In particular, the likelihood does not decrease at the first iteration of
`fit_bradley_terry` on any match list: the all-ones initial strengths lie
above the clamp floor, and the aggregated tallies satisfy the total-split
identity. -/
theorem btStep_log_likelihood_mono_at_init (ms : List Game) :
    log_likelihood (aggregate_matches ms).players (aggregate_matches ms).w
        (fun _ => 1)
      ≤ log_likelihood (aggregate_matches ms).players (aggregate_matches ms).w
          (btStep (aggregate_matches ms).players (aggregate_matches ms).w
            (aggregate_matches ms).n (fun _ => 1)) := by
  refine btStep_log_likelihood_mono _ _ _ (fun i j => ?_) _ (fun i _ => ?_)
  · rw [aggregate_n, aggregate_w, aggregate_w]
  · unfold btEps
    rw [div_le_one (by positivity)]
    exact one_le_pow₀ (by norm_num)

end BT
